import Mathlib

/-!
Verification development for the financial-analysis intelligent tutoring
system (`app.py`).  The core logic of the application — quiz mastery
tracking, progress percentages, curriculum grouping of ontology concepts,
and the "recommend next topic" heuristic — is embedded shallowly below.

Ontology individuals are modelled structurally: a `Concept` carries its
name, its optional `hasLevel` literal, its list of `hasQuiz` quiz
questions and its list of `relatedTo` concepts (a nested inductive, since
related entries are themselves full individuals).  The per-session
Streamlit state (`st.session_state`) is modelled by an explicit
`ProgressState` record: the `quiz_correct` dictionary becomes an
association list, the `visited_concepts` set a list of names.

Python-level primitives used by the code (`str.lower`, `str.strip`,
`str.startswith`, substring containment `in`, `str.split`) are embedded
as executable character-list functions so that every definition evaluates
by kernel reduction on concrete inputs.
-/

namespace ITS

/-- A quiz-question individual: its ontology name and the three data
properties read by the app (`questionText`, `options`, `correctAnswer`),
each of which may be missing (`get_literal` returns `None`). -/
structure Quiz where
  name : String
  questionText : Option String
  options : Option String
  correctAnswer : Option String
deriving DecidableEq

/-- A concept individual: name, optional `hasLevel` literal, attached quiz
questions (`hasQuiz`) and related concept individuals (`relatedTo`). -/
inductive Concept where
  | mk (name : String) (level : Option String) (quizzes : List Quiz) (relatedTo : List Concept)

def Concept.name : Concept → String
  | .mk n _ _ _ => n

def Concept.level : Concept → Option String
  | .mk _ l _ _ => l

def Concept.quizzes : Concept → List Quiz
  | .mk _ _ qs _ => qs

def Concept.relatedTo : Concept → List Concept
  | .mk _ _ _ rs => rs

mutual

/-- Structural equality on concepts (Python compares individuals). -/
def Concept.beq : Concept → Concept → Bool
  | .mk n1 l1 q1 r1, .mk n2 l2 q2 r2 =>
    n1 == n2 && l1 == l2 && q1 == q2 && Concept.beqList r1 r2

def Concept.beqList : List Concept → List Concept → Bool
  | [], [] => true
  | x :: xs, y :: ys => Concept.beq x y && Concept.beqList xs ys
  | _, _ => false

end

mutual

def Concept.beq_iff : ∀ a b : Concept, Concept.beq a b = true ↔ a = b
  | .mk n1 l1 q1 r1, .mk n2 l2 q2 r2 => by
    simp only [Concept.beq, Bool.and_eq_true, beq_iff_eq, Concept.mk.injEq]
    constructor
    · rintro ⟨⟨⟨h1, h2⟩, h3⟩, h4⟩
      exact ⟨h1, h2, h3, (Concept.beqList_iff r1 r2).1 h4⟩
    · rintro ⟨h1, h2, h3, h4⟩
      exact ⟨⟨⟨h1, h2⟩, h3⟩, (Concept.beqList_iff r1 r2).2 h4⟩

def Concept.beqList_iff : ∀ a b : List Concept, Concept.beqList a b = true ↔ a = b
  | [], [] => by simp [Concept.beqList]
  | [], _ :: _ => by simp [Concept.beqList]
  | _ :: _, [] => by simp [Concept.beqList]
  | x :: xs, y :: ys => by
    simp only [Concept.beqList, Bool.and_eq_true, List.cons.injEq]
    constructor
    · rintro ⟨h1, h2⟩
      exact ⟨(Concept.beq_iff x y).1 h1, (Concept.beqList_iff xs ys).1 h2⟩
    · rintro ⟨h1, h2⟩
      exact ⟨(Concept.beq_iff x y).2 h1, (Concept.beqList_iff xs ys).2 h2⟩

end

instance : DecidableEq Concept := fun a b =>
  decidable_of_iff (Concept.beq a b = true) (Concept.beq_iff a b)

/-! ### Python string primitives, embedded over character lists -/

/-- Python `str.lower()` (ASCII case folding suffices for the identifiers
appearing in the app). -/
def py_lower (s : String) : String := (s.toList.map Char.toLower).asString

/-- Python whitespace stripping on a character list: drop leading and
trailing whitespace. -/
def py_strip_chars (l : List Char) : List Char :=
  ((l.dropWhile Char.isWhitespace).reverse.dropWhile Char.isWhitespace).reverse

/-- Python `str.strip()`. -/
def py_strip (s : String) : String := (py_strip_chars s.toList).asString

/-- Python `pre in n` style substring test on character lists. -/
def has_sub (n k : List Char) : Bool :=
  match n with
  | [] => k.isEmpty
  | _ :: t => k.isPrefixOf n || has_sub t k

/-- Python `k in n` substring containment on strings. -/
def str_contains (n k : String) : Bool := has_sub n.toList k.toList

/-- Python `s.startswith(pre)`. -/
def py_startswith (s pre : String) : Bool := pre.toList.isPrefixOf s.toList

/-- Python `str.split(sep)` on character lists (keeps empty pieces,
exactly like Python's one-argument split on a literal separator). -/
def split_chars (sep : Char) : List Char → List (List Char)
  | [] => [[]]
  | c :: rest =>
    if c == sep then [] :: split_chars sep rest
    else
      match split_chars sep rest with
      | [] => [[c]]
      | h :: t => (c :: h) :: t

/-! ### Session state (`st.session_state`) -/

/-- The session-scoped mutable state: the `quiz_correct` dictionary
(quiz name ↦ last recorded correctness), the `visited_concepts` set and
the `last_concept` marker. -/
structure ProgressState where
  quiz_correct : List (String × Bool)
  visited_concepts : List String
  last_concept : Option String
deriving DecidableEq

/-- Python `d.get(key, False)` on the quiz-result dictionary. -/
def dictGet (d : List (String × Bool)) (key : String) : Bool :=
  match d.find? (fun p => p.1 == key) with
  | some p => p.2
  | none => false

/-- Python `d[key] = v` on the quiz-result dictionary: replace the entry
if the key is present, otherwise append it. -/
def dictSet (d : List (String × Bool)) (key : String) (v : Bool) : List (String × Bool) :=
  if d.any (fun p => p.1 == key) then
    d.map (fun p => if p.1 == key then (p.1, v) else p)
  else d ++ [(key, v)]

/-- `mark_quiz_result` (app.py:152): record the latest result for a quiz. -/
def mark_quiz_result (st : ProgressState) (quiz_name : String) (is_correct : Bool) : ProgressState :=
  { st with quiz_correct := dictSet st.quiz_correct quiz_name is_correct }

/-! ### Concept accessors (app.py helper functions) -/

/-- `get_quizzes` (app.py:86): the `hasQuiz` relation of a concept. -/
def get_quizzes (c : Concept) : List Quiz := c.quizzes

/-- `get_related(entity, "relatedTo")` (app.py:71): the `relatedTo` relation. -/
def get_related (c : Concept) : List Concept := c.relatedTo

/-- `get_level` (app.py:101): the `hasLevel` literal, with the Python
falsy test — a missing or empty literal yields `"Unspecified"`. -/
def get_level (c : Concept) : String :=
  match c.level with
  | some l => if l.isEmpty then "Unspecified" else l
  | none => "Unspecified"

/-! ### Mastery and progress (app.py:156–175) -/

/-- `concept_mastered` (app.py:156): false when the concept has no quiz
questions, otherwise true iff some quiz has a recorded correct result. -/
def concept_mastered (st : ProgressState) (c : Concept) : Bool :=
  let qs := get_quizzes c
  if qs.isEmpty then false
  else qs.any (fun q => dictGet st.quiz_correct q.name)

/-- `compute_progress` (app.py:163): percentage of quiz-enabled concepts
that are mastered, with the empty case guarded to `0`. -/
def compute_progress (st : ProgressState) (concepts : List Concept) : ℚ :=
  let with_quiz := concepts.filter (fun c => !(get_quizzes c).isEmpty)
  if with_quiz.isEmpty then 0
  else 100 * ((with_quiz.filter (fun c => concept_mastered st c)).length : ℚ)
        / ((with_quiz.length : ℚ))

/-- `module_progress` (app.py:172). -/
def module_progress (st : ProgressState) (module_concepts : List Concept) : ℚ :=
  if module_concepts.isEmpty then 0 else compute_progress st module_concepts

/-! ### Grouping of concepts into curriculum modules (app.py:106–136) -/

/-- The eight fixed module labels, in the order the dictionary is built. -/
def moduleNames : List String :=
  ["Foundations: Financial Statements",
   "Profitability & Return Ratios",
   "Liquidity & Working Capital",
   "Asset Utilisation & Efficiency",
   "Leverage & Capital Structure",
   "Trend, Growth & Benchmarking",
   "Pyramid / DuPont Analysis",
   "Other Concepts"]

/-- The module chosen for a concept by the if/elif keyword chain of
`group_concepts` (app.py:118–135): first-match-wins substring tests on the
lower-cased name, with `"Other Concepts"` as the catch-all. -/
def module_of (c : Concept) : String :=
  let n := py_lower c.name
  if ["financialstatements", "balancesheet", "incomestatement", "cashflow"].any
      (fun k => str_contains n k) then "Foundations: Financial Statements"
  else if ["profitability", "returnon", "returnratios"].any
      (fun k => str_contains n k) then "Profitability & Return Ratios"
  else if ["liquidity", "currentratio", "quickratio", "workingcapital"].any
      (fun k => str_contains n k) then "Liquidity & Working Capital"
  else if ["assetutilization", "assetutilisation"].any
      (fun k => str_contains n k) then "Asset Utilisation & Efficiency"
  else if ["leverage", "debttoequity"].any
      (fun k => str_contains n k) then "Leverage & Capital Structure"
  else if ["trendanalysis", "growthratios", "benchmarking"].any
      (fun k => str_contains n k) then "Trend, Growth & Benchmarking"
  else if ["dupont"].any
      (fun k => str_contains n k) then "Pyramid / DuPont Analysis"
  else "Other Concepts"

/-- The initial groups dictionary of `group_concepts`: all eight module
labels mapped to empty lists, in declaration order. -/
def groups_init : List (String × List Concept) :=
  moduleNames.map (fun m => (m, ([] : List Concept)))

/-- `groups[m].append(c)` on the association-list dictionary. -/
def add_to (gs : List (String × List Concept)) (m : String) (c : Concept) :
    List (String × List Concept) :=
  match gs with
  | [] => []
  | p :: rest => (if p.1 == m then (p.1, p.2 ++ [c]) else p) :: add_to rest m c

/-- `group_concepts` (app.py:106): iterate the concepts in order, append
each to the bucket selected by the keyword chain. -/
def group_concepts (concepts : List Concept) : List (String × List Concept) :=
  concepts.foldl (fun gs c => add_to gs (module_of c) c) groups_init

/-- Dictionary lookup on the groups association list (missing key ↦ `[]`). -/
def dictFind (gs : List (String × List Concept)) (m : String) : List Concept :=
  match gs.find? (fun p => p.1 == m) with
  | some p => p.2
  | none => []

/-! ### Recommendation engine (app.py:181–219) -/

/-- One iteration of the phase-1/phase-2 loops of `recommend_next`:
`if c not in recs: recs.append(c)`. -/
def add_if_new (recs : List Concept) (c : Concept) : List Concept :=
  if c ∈ recs then recs else recs ++ [c]

/-- One iteration of the phase-3 loop (and of the related-candidate
collection): `if c not in recs and not concept_mastered(c): recs.append(c)`. -/
def add_if_new_unmastered (st : ProgressState) (recs : List Concept) (c : Concept) :
    List Concept :=
  if c ∉ recs ∧ concept_mastered st c = false then recs ++ [c] else recs

/-- The phase-1/phase-2 fill loop of `recommend_next`, including the
`if len(recs) >= k: break` check performed after every iteration. -/
def fill (k : Nat) : List Concept → List Concept → List Concept
  | recs, [] => recs
  | recs, c :: rest =>
    if k ≤ (add_if_new recs c).length then add_if_new recs c
    else fill k (add_if_new recs c) rest

/-- The phase-3 fill loop of `recommend_next` (same break check, but the
append is guarded by non-membership and non-mastery). -/
def fill_any (st : ProgressState) (k : Nat) : List Concept → List Concept → List Concept
  | recs, [] => recs
  | recs, c :: rest =>
    if k ≤ (add_if_new_unmastered st recs c).length then add_if_new_unmastered st recs c
    else fill_any st k (add_if_new_unmastered st recs c) rest

/-- `recommend_next` (app.py:181): beginner-first, then concepts related
to mastered ones, then any unmastered concept, truncated to `k`.  (The
`groups` argument of the Python function is unused by its body and is
omitted.) -/
def recommend_next (st : ProgressState) (concepts : List Concept) (k : Nat) : List Concept :=
  let visited := st.visited_concepts
  let beginner_candidates := concepts.filter
    (fun c => !visited.contains c.name && py_startswith (py_lower (get_level c)) "beginner")
  let mastered := concepts.filter (fun c => concept_mastered st c)
  let related_candidates := mastered.foldl
    (fun acc m => (get_related m).foldl (fun acc2 r => add_if_new_unmastered st acc2 r) acc) []
  let recs1 := fill k [] beginner_candidates
  let recs2 := fill k recs1 related_candidates
  let recs3 := if recs2.length < k then fill_any st k recs2 concepts else recs2
  recs3.take k

/-! ### Quiz answer checking (app.py:483–502, 553–570) -/

/-- Python truthiness of an optional string literal (`None` and `""` are
falsy). -/
def py_truthy (s : Option String) : Bool :=
  match s with
  | some v => !v.isEmpty
  | none => false

/-- A quiz question is fully defined when its question text, options and
correct answer are all present and non-empty (app.py:483, 553, 595). -/
def quiz_defined (q : Quiz) : Bool :=
  py_truthy q.questionText && py_truthy q.options && py_truthy q.correctAnswer

/-- `choices = [o.strip() for o in options.split("|")]` (app.py:488). -/
def parse_choices (options : String) : List String :=
  (split_chars '|' options.toList).map (fun cs => (py_strip_chars cs).asString)

/-- The answer-check interaction of the Learn page and the Quiz Hub
(app.py:483–502, 553–570): a malformed question is skipped (flagged as not
fully defined, no result recorded); otherwise the chosen answer is
compared to the stripped correct answer and the boolean outcome recorded
via `mark_quiz_result`. -/
def check_quiz_step (st : ProgressState) (q : Quiz) (user_answer : String) : ProgressState :=
  if quiz_defined q then
    mark_quiz_result st q.name (user_answer == py_strip (q.correctAnswer.getD ""))
  else st

/-! ### Spec-side description of the recommender (for the refinement
claim about the three-phase structure) -/

/-- Spec-side deduplicating append: extend `recs` with each candidate not
already selected, in candidate order. -/
def dedupAppend (recs cands : List Concept) : List Concept :=
  cands.foldl (fun rs c => add_if_new rs c) recs

/-- Spec phase 1: unvisited concepts whose level string starts with
"beginner" case-insensitively, in original list order. -/
def beginnerPhase (st : ProgressState) (concepts : List Concept) : List Concept :=
  concepts.filter
    (fun c => !st.visited_concepts.contains c.name
      && py_startswith (py_lower (get_level c)) "beginner")

/-- Spec phase 2: concepts related to already-mastered concepts, in the
order mastered concepts are iterated and then the order of each
related-concept list, skipping candidates that are themselves mastered
and already-collected duplicates. -/
def relatedPhase (st : ProgressState) (concepts : List Concept) : List Concept :=
  (concepts.filter (fun c => concept_mastered st c)).foldl
    (fun acc m => (get_related m).foldl (fun acc2 r => add_if_new_unmastered st acc2 r) acc) []

/-- Spec phase 3: the unmastered concepts, in original list order. -/
def unmasteredPhase (st : ProgressState) (concepts : List Concept) : List Concept :=
  concepts.filter (fun c => !concept_mastered st c)

/-- The recommender as the spec words it: fill the output in three phases
in order (unvisited beginners, concepts related to mastered ones, any
remaining unmastered concept), skipping duplicates, truncated to `k`. -/
def recommendNextSpec (st : ProgressState) (concepts : List Concept) (k : Nat) : List Concept :=
  (dedupAppend (dedupAppend (dedupAppend [] (beginnerPhase st concepts))
      (relatedPhase st concepts)) (unmasteredPhase st concepts)).take k

/-! ### Shared lemmas about mastery and progress -/

/-- Characterisation of `concept_mastered` as an existential over the
concept's quiz list. -/
theorem mastered_iff_exists (st : ProgressState) (c : Concept) :
    concept_mastered st c = true
      ↔ ∃ q ∈ get_quizzes c, dictGet st.quiz_correct q.name = true := by
  cases hq : get_quizzes c with
  | nil => simp [concept_mastered, hq]
  | cons a l => simp [concept_mastered, hq, List.any_eq_true]

/-- Mastery is monotone in the recorded quiz results. -/
theorem concept_mastered_mono {st1 st2 : ProgressState}
    (h : ∀ qn, dictGet st1.quiz_correct qn = true → dictGet st2.quiz_correct qn = true)
    (c : Concept) (hm : concept_mastered st1 c = true) : concept_mastered st2 c = true := by
  rcases (mastered_iff_exists st1 c).1 hm with ⟨q, hq, hv⟩
  exact (mastered_iff_exists st2 c).2 ⟨q, hq, h _ hv⟩

/-! ### Claim theorems: mastery and progress -/

/-- C1: `concept_mastered` returns false when the concept has zero quiz
questions, and otherwise returns true iff at least one of its quiz
questions has a recorded correct last result in the progress state. -/
theorem concept_mastered_correct (st : ProgressState) (c : Concept) :
    ((get_quizzes c).isEmpty = true → concept_mastered st c = false) ∧
    (concept_mastered st c = true
      ↔ ∃ q ∈ get_quizzes c, dictGet st.quiz_correct q.name = true) := by
  refine ⟨?_, mastered_iff_exists st c⟩
  intro h
  have he : get_quizzes c = [] := List.isEmpty_iff.mp h
  simp [concept_mastered, he]

/-- Witness for C1 at a concrete quiz-less concept. -/
theorem concept_mastered_correct_witness :
    (get_quizzes (Concept.mk "NoQuizConcept" (some "Beginner") [] [])).isEmpty = true ∧
    concept_mastered ⟨[("q1", true)], [], none⟩
      (Concept.mk "NoQuizConcept" (some "Beginner") [] []) = false :=
  ⟨rfl, (concept_mastered_correct ⟨[("q1", true)], [], none⟩ _).1 rfl⟩

/-- C2: `compute_progress` restricts to quiz-enabled concepts, returns 0
when there are none, otherwise 100 × mastered / quiz-enabled; the result
lies in [0, 100]; and on the scenario
`[A(Beginner, no quizzes), B(Intermediate, quizzes=[q1])]` it returns 0
with q1 unanswered and 100 after q1 is recorded correct. -/
theorem compute_progress_correct :
    (∀ (st : ProgressState) (concepts : List Concept),
      compute_progress st concepts =
        if (concepts.filter (fun c => !(get_quizzes c).isEmpty)).isEmpty then 0
        else 100 * (((concepts.filter (fun c => !(get_quizzes c).isEmpty)).filter
                (fun c => concept_mastered st c)).length : ℚ)
              / (((concepts.filter (fun c => !(get_quizzes c).isEmpty)).length : ℚ))) ∧
    (∀ (st : ProgressState) (concepts : List Concept),
      0 ≤ compute_progress st concepts ∧ compute_progress st concepts ≤ 100) ∧
    compute_progress ⟨[], [], none⟩
      [Concept.mk "A" (some "Beginner") [] [],
       Concept.mk "B" (some "Intermediate") [Quiz.mk "q1" (some "Q") (some "a|b") (some "a")] []]
      = 0 ∧
    compute_progress (mark_quiz_result ⟨[], [], none⟩ "q1" true)
      [Concept.mk "A" (some "Beginner") [] [],
       Concept.mk "B" (some "Intermediate") [Quiz.mk "q1" (some "Q") (some "a|b") (some "a")] []]
      = 100 := by
  refine ⟨fun st concepts => rfl, ?_, ?_, ?_⟩
  · intro st concepts
    unfold compute_progress
    by_cases h : (concepts.filter (fun c => !(get_quizzes c).isEmpty)).isEmpty
    · simp [h]
    · rw [if_neg h]
      have hn : (0 : ℚ) < ((concepts.filter (fun c => !(get_quizzes c).isEmpty)).length : ℚ) := by
        cases hc : concepts.filter (fun c => !(get_quizzes c).isEmpty) with
        | nil => rw [hc] at h; simp at h
        | cons a l => simp; positivity
      have hm : ((concepts.filter (fun c => !(get_quizzes c).isEmpty)).filter
            (fun c => concept_mastered st c)).length
          ≤ (concepts.filter (fun c => !(get_quizzes c).isEmpty)).length :=
        (List.filter_sublist _).length_le
      constructor
      · positivity
      · rw [div_le_iff₀ hn]
        have := mul_le_mul_of_nonneg_left (Nat.cast_le.mpr hm) (by norm_num : (0:ℚ) ≤ 100)
        linarith
  · have h1 : List.filter (fun c => !(get_quizzes c).isEmpty)
        [Concept.mk "A" (some "Beginner") [] [],
         Concept.mk "B" (some "Intermediate") [Quiz.mk "q1" (some "Q") (some "a|b") (some "a")] []]
        = [Concept.mk "B" (some "Intermediate") [Quiz.mk "q1" (some "Q") (some "a|b") (some "a")] []] := by
      decide
    have h2 : List.filter (fun c => concept_mastered ⟨[], [], none⟩ c)
        [Concept.mk "B" (some "Intermediate") [Quiz.mk "q1" (some "Q") (some "a|b") (some "a")] []]
        = [] := by decide
    simp only [compute_progress, h1, h2]
    norm_num
  · have h1 : List.filter (fun c => !(get_quizzes c).isEmpty)
        [Concept.mk "A" (some "Beginner") [] [],
         Concept.mk "B" (some "Intermediate") [Quiz.mk "q1" (some "Q") (some "a|b") (some "a")] []]
        = [Concept.mk "B" (some "Intermediate") [Quiz.mk "q1" (some "Q") (some "a|b") (some "a")] []] := by
      decide
    have h2 : List.filter (fun c => concept_mastered (mark_quiz_result ⟨[], [], none⟩ "q1" true) c)
        [Concept.mk "B" (some "Intermediate") [Quiz.mk "q1" (some "Q") (some "a|b") (some "a")] []]
        = [Concept.mk "B" (some "Intermediate") [Quiz.mk "q1" (some "Q") (some "a|b") (some "a")] []] := by
      decide
    simp only [compute_progress, h1, h2]
    norm_num

/-- C6: `compute_progress` is monotone in the recorded quiz results — if
every quiz recorded correct in `st1` is also recorded correct in `st2`
(flips only go from incorrect/absent to correct), the percentage does not
decrease. -/
theorem compute_progress_monotone (concepts : List Concept) (st1 st2 : ProgressState)
    (h : ∀ qn, dictGet st1.quiz_correct qn = true → dictGet st2.quiz_correct qn = true) :
    compute_progress st1 concepts ≤ compute_progress st2 concepts := by
  unfold compute_progress
  by_cases hemp : (concepts.filter (fun c => !(get_quizzes c).isEmpty)).isEmpty
  · simp [hemp]
  · rw [if_neg hemp, if_neg hemp]
    have hn : (0 : ℚ) < ((concepts.filter (fun c => !(get_quizzes c).isEmpty)).length : ℚ) := by
      cases hc : concepts.filter (fun c => !(get_quizzes c).isEmpty) with
      | nil => rw [hc] at hemp; simp at hemp
      | cons a l => simp; positivity
    have hlen : ((concepts.filter (fun c => !(get_quizzes c).isEmpty)).filter
          (fun c => concept_mastered st1 c)).length
        ≤ ((concepts.filter (fun c => !(get_quizzes c).isEmpty)).filter
          (fun c => concept_mastered st2 c)).length :=
      (List.monotone_filter_right _ (fun c hc => concept_mastered_mono h c hc)).length_le
    have hcast : (((concepts.filter (fun c => !(get_quizzes c).isEmpty)).filter
          (fun c => concept_mastered st1 c)).length : ℚ)
        ≤ (((concepts.filter (fun c => !(get_quizzes c).isEmpty)).filter
          (fun c => concept_mastered st2 c)).length : ℚ) := Nat.cast_le.mpr hlen
    gcongr

/-- Witness for C6: recording q1 correct raises the percentage for a
one-concept list from 0 to 100 (in particular does not decrease it). -/
theorem compute_progress_monotone_witness :
    (∀ qn, dictGet (ProgressState.mk [] [] none).quiz_correct qn = true →
        dictGet (ProgressState.mk [("q1", true)] [] none).quiz_correct qn = true) ∧
    compute_progress ⟨[], [], none⟩
        [Concept.mk "B" (some "Intermediate") [Quiz.mk "q1" (some "Q") (some "a|b") (some "a")] []]
      ≤ compute_progress ⟨[("q1", true)], [], none⟩
        [Concept.mk "B" (some "Intermediate") [Quiz.mk "q1" (some "Q") (some "a|b") (some "a")] []] :=
  ⟨fun _ h => Bool.noConfusion h,
   compute_progress_monotone _ _ _ (fun _ h => Bool.noConfusion h)⟩

/-! ### Claim theorems: quiz answer checking -/

/-- C7: a submitted answer is judged correct iff the chosen option equals
the stored correct answer after stripping its whitespace — trim-only,
never case-folded: the choices themselves are parsed by splitting on the
delimiter and stripping, `" Current Ratio "` matches `"Current Ratio"`
after trimming, but `"current ratio"` does not. -/
theorem quiz_answer_check_correct (st : ProgressState) (q : Quiz) (user_answer : String)
    (h : quiz_defined q = true) :
    (check_quiz_step st q user_answer
        = mark_quiz_result st q.name (user_answer == py_strip (q.correctAnswer.getD ""))) ∧
    ((user_answer == py_strip (q.correctAnswer.getD "")) = true
        ↔ user_answer = py_strip (q.correctAnswer.getD "")) ∧
    parse_choices " Current Ratio |current ratio" = ["Current Ratio", "current ratio"] ∧
    ("Current Ratio" == py_strip " Current Ratio ") = true ∧
    ("current ratio" == py_strip "Current Ratio") = false := by
  refine ⟨?_, beq_iff_eq, by decide, by decide, by decide⟩
  simp [check_quiz_step, h]

/-- Witness for C7 at a concrete well-formed question whose stored correct
answer carries surrounding whitespace. -/
theorem quiz_answer_check_correct_witness :
    quiz_defined (Quiz.mk "q1" (some "Q") (some " Current Ratio |current ratio")
        (some " Current Ratio ")) = true ∧
    check_quiz_step ⟨[], [], none⟩
        (Quiz.mk "q1" (some "Q") (some " Current Ratio |current ratio") (some " Current Ratio "))
        "Current Ratio"
      = mark_quiz_result ⟨[], [], none⟩ "q1" ("Current Ratio" == py_strip " Current Ratio ") :=
  ⟨by decide, (quiz_answer_check_correct _ _ _ (by decide)).1⟩

/-! ### Claim theorems: malformed quiz questions (C8) -/

/-- C8 counterexample: a malformed quiz question is not excluded from the
progress percentage.  Concept A has one well-formed quiz recorded correct;
concept B's only quiz q2 is malformed (all fields missing) and has no
recorded result, yet its mere presence makes B quiz-enabled: the
percentage is 50, while without the malformed question it would be 100 —
so the malformed question does contribute to a progress percentage. -/
theorem malformed_quiz_affects_progress :
    quiz_defined (Quiz.mk "q2" none none none) = false ∧
    dictGet [("q1", true)] "q2" = false ∧
    compute_progress ⟨[("q1", true)], [], none⟩
      [Concept.mk "A" none [Quiz.mk "q1" (some "Q") (some "a|b") (some "a")] [],
       Concept.mk "B" none [Quiz.mk "q2" none none none] []] = 50 ∧
    compute_progress ⟨[("q1", true)], [], none⟩
      [Concept.mk "A" none [Quiz.mk "q1" (some "Q") (some "a|b") (some "a")] [],
       Concept.mk "B" none [] []] = 100 := by
  refine ⟨by decide, by decide, ?_, ?_⟩
  · have h1 : List.filter (fun c => !(get_quizzes c).isEmpty)
        [Concept.mk "A" none [Quiz.mk "q1" (some "Q") (some "a|b") (some "a")] [],
         Concept.mk "B" none [Quiz.mk "q2" none none none] []]
        = [Concept.mk "A" none [Quiz.mk "q1" (some "Q") (some "a|b") (some "a")] [],
           Concept.mk "B" none [Quiz.mk "q2" none none none] []] := by decide
    have h2 : List.filter (fun c => concept_mastered ⟨[("q1", true)], [], none⟩ c)
        [Concept.mk "A" none [Quiz.mk "q1" (some "Q") (some "a|b") (some "a")] [],
         Concept.mk "B" none [Quiz.mk "q2" none none none] []]
        = [Concept.mk "A" none [Quiz.mk "q1" (some "Q") (some "a|b") (some "a")] []] := by decide
    simp only [compute_progress, h1, h2]
    norm_num
  · have h1 : List.filter (fun c => !(get_quizzes c).isEmpty)
        [Concept.mk "A" none [Quiz.mk "q1" (some "Q") (some "a|b") (some "a")] [],
         Concept.mk "B" none [] []]
        = [Concept.mk "A" none [Quiz.mk "q1" (some "Q") (some "a|b") (some "a")] []] := by decide
    have h2 : List.filter (fun c => concept_mastered ⟨[("q1", true)], [], none⟩ c)
        [Concept.mk "A" none [Quiz.mk "q1" (some "Q") (some "a|b") (some "a")] []]
        = [Concept.mk "A" none [Quiz.mk "q1" (some "Q") (some "a|b") (some "a")] []] := by decide
    simp only [compute_progress, h1, h2]
    norm_num

/-- C8 amended: a malformed quiz question is skipped and flagged by the
answer-check step (the state is unchanged, so it never receives a
recorded result), and a quiz question with no recorded correct result
never contributes to a concept's mastery; however malformed questions do
still count toward quiz-enabledness in progress denominators. -/
theorem malformed_quiz_skipped_no_mastery :
    (∀ (st : ProgressState) (q : Quiz) (ua : String),
      quiz_defined q = false → check_quiz_step st q ua = st) ∧
    (∀ (st : ProgressState) (n : String) (l : Option String) (qs : List Quiz)
        (r : List Concept) (q : Quiz),
      dictGet st.quiz_correct q.name = false →
      concept_mastered st (Concept.mk n l (qs ++ [q]) r)
        = concept_mastered st (Concept.mk n l qs r)) := by
  constructor
  · intro st q ua h
    simp [check_quiz_step, h]
  · intro st n l qs r q h
    cases qs with
    | nil => simp [concept_mastered, get_quizzes, Concept.quizzes, h]
    | cons a t =>
      simp [concept_mastered, get_quizzes, Concept.quizzes, List.any_append, h]

/-- Witness for the amended C8 at a concrete malformed question. -/
theorem malformed_quiz_skipped_no_mastery_witness :
    quiz_defined (Quiz.mk "q2" none none none) = false ∧
    check_quiz_step ⟨[("q1", true)], [], none⟩ (Quiz.mk "q2" none none none) "a"
      = ⟨[("q1", true)], [], none⟩ ∧
    dictGet [("q1", true)] "q2" = false ∧
    concept_mastered ⟨[("q1", true)], [], none⟩
        (Concept.mk "B" none ([] ++ [Quiz.mk "q2" none none none]) [])
      = concept_mastered ⟨[("q1", true)], [], none⟩ (Concept.mk "B" none [] []) :=
  ⟨by decide, malformed_quiz_skipped_no_mastery.1 _ _ _ (by decide), by decide,
   malformed_quiz_skipped_no_mastery.2 _ _ _ _ _ _ (by decide)⟩

/-! ### Lemmas about the grouping classifier -/

/-- The classifier always lands in one of the eight fixed modules. -/
theorem module_of_mem (c : Concept) : module_of c ∈ moduleNames := by
  simp only [module_of]
  repeat' split
  all_goals decide

/-- `add_to` preserves the keys of the groups dictionary. -/
theorem add_to_fst (gs : List (String × List Concept)) (m : String) (c : Concept) :
    (add_to gs m c).map Prod.fst = gs.map Prod.fst := by
  induction gs with
  | nil => rfl
  | cons p rest ih =>
    by_cases h : (p.1 == m) = true
    · simp [add_to, h, ih]
    · simp [add_to, h, ih]

/-- Lookup through a cons cell of the groups dictionary. -/
theorem dictFind_cons (p : String × List Concept) (rest : List (String × List Concept))
    (m : String) :
    dictFind (p :: rest) m = if (p.1 == m) = true then p.2 else dictFind rest m := by
  by_cases h : (p.1 == m) = true
  · simp [dictFind, List.find?_cons, h]
  · simp [dictFind, List.find?_cons, h]

/-- Effect of one `append` on a later lookup: the bucket grows exactly
when the looked-up key is the appended-to key and that key is present. -/
theorem dictFind_add_to (gs : List (String × List Concept)) (m : String) (c : Concept)
    (m' : String) :
    dictFind (add_to gs m c) m' =
      if m' = m ∧ m' ∈ gs.map Prod.fst then dictFind gs m' ++ [c] else dictFind gs m' := by
  induction gs with
  | nil => simp [add_to, dictFind]
  | cons p rest ih =>
    have hstep : add_to (p :: rest) m c
        = (if (p.1 == m) = true then (p.1, p.2 ++ [c]) else p) :: add_to rest m c := rfl
    rw [hstep]
    by_cases hp : p.1 = m'
    · by_cases hm : m' = m
      · have hq : (p.1 == m) = true := beq_iff_eq.mpr (hp.trans hm)
        rw [if_pos hq, dictFind_cons, dictFind_cons]
        have hb : (p.1 == m') = true := beq_iff_eq.mpr hp
        rw [if_pos hb, if_pos hb, if_pos ⟨hm, by simp [hp.symm]⟩]
      · have hq : ¬ (p.1 == m) = true := by
          rw [beq_iff_eq]
          intro he
          exact hm (hp.symm.trans he)
        rw [if_neg hq, dictFind_cons, dictFind_cons]
        have hb : (p.1 == m') = true := beq_iff_eq.mpr hp
        rw [if_pos hb, if_pos hb, if_neg (by tauto)]
    · have hb : ¬ (p.1 == m') = true := by
        rw [beq_iff_eq]
        exact hp
      by_cases hpm : (p.1 == m) = true
      · rw [if_pos hpm, dictFind_cons, dictFind_cons, if_neg hb, if_neg hb, ih]
        have hmm : (m' ∈ (p :: rest).map Prod.fst) ↔ (m' ∈ rest.map Prod.fst) := by
          simp only [List.map_cons, List.mem_cons]
          constructor
          · rintro (h | h)
            · exact absurd h.symm hp
            · exact h
          · exact Or.inr
        by_cases hcond : m' = m ∧ m' ∈ rest.map Prod.fst
        · rw [if_pos hcond, if_pos ⟨hcond.1, hmm.mpr hcond.2⟩]
        · rw [if_neg hcond, if_neg (by rw [hmm]; exact hcond)]
      · rw [if_neg hpm, dictFind_cons, dictFind_cons, if_neg hb, if_neg hb, ih]
        have hmm : (m' ∈ (p :: rest).map Prod.fst) ↔ (m' ∈ rest.map Prod.fst) := by
          simp only [List.map_cons, List.mem_cons]
          constructor
          · rintro (h | h)
            · exact absurd h.symm hp
            · exact h
          · exact Or.inr
        by_cases hcond : m' = m ∧ m' ∈ rest.map Prod.fst
        · rw [if_pos hcond, if_pos ⟨hcond.1, hmm.mpr hcond.2⟩]
        · rw [if_neg hcond, if_neg (by rw [hmm]; exact hcond)]

/-- Folding the grouping step over a dictionary whose keys are exactly
the module names appends, per bucket, the concepts classified there. -/
theorem dictFind_foldl (cs : List Concept) :
    ∀ gs : List (String × List Concept), gs.map Prod.fst = moduleNames →
    ∀ m, dictFind (cs.foldl (fun g c => add_to g (module_of c) c) gs) m
        = dictFind gs m ++ cs.filter (fun c => module_of c == m) := by
  induction cs with
  | nil =>
    intro gs _ m
    simp
  | cons c rest ih =>
    intro gs hk m
    rw [List.foldl_cons]
    have hk' : (add_to gs (module_of c) c).map Prod.fst = moduleNames := by
      rw [add_to_fst, hk]
    rw [ih _ hk' m, dictFind_add_to, List.filter_cons]
    by_cases hm : m = module_of c
    · have hmem : m ∈ gs.map Prod.fst := by
        rw [hk, hm]
        exact module_of_mem c
      rw [if_pos ⟨hm, hmem⟩]
      have hb : (module_of c == m) = true := beq_iff_eq.mpr hm.symm
      rw [hb, if_pos rfl]
      simp
    · rw [if_neg (by tauto)]
      have hb : (module_of c == m) = false := by
        rw [beq_eq_false_iff_ne]
        exact fun he => hm he.symm
      rw [hb]
      simp

/-- The initial dictionary has empty buckets everywhere. -/
theorem dictFind_map_nil (names : List String) (m : String) :
    dictFind (names.map (fun s => (s, ([] : List Concept)))) m = [] := by
  induction names with
  | nil => rfl
  | cons a rest ih =>
    rw [List.map_cons, dictFind_cons]
    split
    · rfl
    · exact ih

/-- Bucket contents of `group_concepts` are exactly the concepts the
keyword chain sends there, in input order. -/
theorem dictFind_group_concepts (concepts : List Concept) (m : String) :
    dictFind (group_concepts concepts) m
      = concepts.filter (fun c => module_of c == m) := by
  unfold group_concepts
  have hk : groups_init.map Prod.fst = moduleNames := rfl
  rw [dictFind_foldl concepts groups_init hk m]
  unfold groups_init
  rw [dictFind_map_nil, List.nil_append]

/-- C3: `group_concepts` partitions the input — every concept is sent by
the first-match keyword chain to exactly one of the eight fixed modules
(with "Other Concepts" as catch-all), each bucket preserves input order
(it is a sublist of the input), and the three scenario names land in
"Liquidity & Working Capital", "Pyramid / DuPont Analysis" and
"Other Concepts" respectively. -/
theorem group_concepts_partition :
    (∀ (concepts : List Concept) (m : String),
      dictFind (group_concepts concepts) m
        = concepts.filter (fun c => module_of c == m)) ∧
    (∀ c : Concept, module_of c ∈ moduleNames) ∧
    (∀ (concepts : List Concept) (c : Concept),
      c ∈ concepts ↔ ∃! m, m ∈ moduleNames ∧ c ∈ dictFind (group_concepts concepts) m) ∧
    (∀ (concepts : List Concept) (m : String),
      List.Sublist (dictFind (group_concepts concepts) m) concepts) ∧
    module_of (Concept.mk "CurrentRatio" none [] []) = "Liquidity & Working Capital" ∧
    module_of (Concept.mk "DuPontAnalysis" none [] []) = "Pyramid / DuPont Analysis" ∧
    module_of (Concept.mk "ForeignExchangeRisk" none [] []) = "Other Concepts" := by
  refine ⟨dictFind_group_concepts, module_of_mem, ?_, ?_, by decide, by decide, by decide⟩
  · intro cs c
    constructor
    · intro hc
      refine ⟨module_of c, ⟨module_of_mem c, ?_⟩, ?_⟩
      · rw [dictFind_group_concepts, List.mem_filter]
        exact ⟨hc, by simp⟩
      · rintro m ⟨_, hm2⟩
        rw [dictFind_group_concepts, List.mem_filter] at hm2
        exact (beq_iff_eq.mp hm2.2).symm
    · rintro ⟨m, ⟨_, hm2⟩, _⟩
      rw [dictFind_group_concepts, List.mem_filter] at hm2
      exact hm2.1
  · intro cs m
    rw [dictFind_group_concepts]
    exact List.filter_sublist cs

/-! ### Claim theorems: recommender, easy cases -/

/-- C9: on an empty concept list the recommender returns the empty list,
for every progress state and every k. -/
theorem recommend_next_empty (st : ProgressState) (k : Nat) :
    recommend_next st [] k = [] := by
  simp [recommend_next, fill, fill_any]

/-- Witness for C3: the scenario concept is found in exactly its bucket. -/
theorem group_concepts_partition_witness :
    dictFind (group_concepts [Concept.mk "CurrentRatio" none [] []])
        "Liquidity & Working Capital"
      = [Concept.mk "CurrentRatio" none [] []] := by
  rw [group_concepts_partition.1]
  decide

/-! ### Lemmas relating the fill loops to the spec's three-phase
description (`dedupAppend` over the phase lists, truncated to k) -/

/-- `recommend_next` written with the named phase lists (definitional). -/
theorem recommend_next_eq (st : ProgressState) (concepts : List Concept) (k : Nat) :
    recommend_next st concepts k =
      (if (fill k (fill k [] (beginnerPhase st concepts)) (relatedPhase st concepts)).length < k
       then fill_any st k
         (fill k (fill k [] (beginnerPhase st concepts)) (relatedPhase st concepts)) concepts
       else fill k (fill k [] (beginnerPhase st concepts)) (relatedPhase st concepts)).take k :=
  rfl

/-- The starting list is a prefix of any deduplicating append over it. -/
theorem prefix_dedupAppend : ∀ (cands recs : List Concept), recs <+: dedupAppend recs cands := by
  intro cands
  induction cands with
  | nil => intro recs; exact List.prefix_rfl
  | cons c rest ih =>
    intro recs
    refine List.IsPrefix.trans ?_ (ih (add_if_new recs c))
    unfold add_if_new
    split
    · exact List.prefix_rfl
    · exact List.prefix_append recs [c]

/-- Taking at most the length of a prefix gives the same answer on the
longer list. -/
theorem prefix_take_eq {l1 l2 : List Concept} (h : l1 <+: l2) {k : Nat}
    (hk : k ≤ l1.length) : l2.take k = l1.take k := by
  obtain ⟨t, rfl⟩ := h
  rw [List.take_append_eq_append_take, Nat.sub_eq_zero_of_le hk]
  simp

/-- The fill loop is a prefix of the no-break deduplicating append and,
when the two differ, the loop stopped because it reached length k. -/
theorem fill_dedup (k : Nat) : ∀ (cands recs : List Concept),
    (fill k recs cands) <+: (dedupAppend recs cands) ∧
    (fill k recs cands = dedupAppend recs cands ∨ k ≤ (fill k recs cands).length) := by
  intro cands
  induction cands with
  | nil => intro recs; exact ⟨List.prefix_rfl, Or.inl rfl⟩
  | cons c rest ih =>
    intro recs
    simp only [fill]
    have hd : dedupAppend recs (c :: rest) = dedupAppend (add_if_new recs c) rest := rfl
    rw [hd]
    by_cases hk : k ≤ (add_if_new recs c).length
    · rw [if_pos hk]
      exact ⟨prefix_dedupAppend rest (add_if_new recs c), Or.inr hk⟩
    · rw [if_neg hk]
      exact ih (add_if_new recs c)

/-- The phase-3 append step equals the plain step guarded by non-mastery. -/
theorem add_if_new_unmastered_eq (st : ProgressState) (recs : List Concept) (c : Concept) :
    add_if_new_unmastered st recs c
      = if concept_mastered st c = false then add_if_new recs c else recs := by
  unfold add_if_new_unmastered add_if_new
  by_cases hm : concept_mastered st c = false
  · by_cases hin : c ∈ recs
    · simp [hm, hin]
    · simp [hm, hin]
  · simp [hm]

/-- The phase-3 fill loop against the deduplicating append over the
unmastered-filtered candidates. -/
theorem fill_any_dedup (st : ProgressState) (k : Nat) : ∀ (cands recs : List Concept),
    (fill_any st k recs cands)
        <+: (dedupAppend recs (cands.filter (fun c => !concept_mastered st c))) ∧
    (fill_any st k recs cands
        = dedupAppend recs (cands.filter (fun c => !concept_mastered st c))
      ∨ k ≤ (fill_any st k recs cands).length) := by
  intro cands
  induction cands with
  | nil => intro recs; exact ⟨List.prefix_rfl, Or.inl rfl⟩
  | cons c rest ih =>
    intro recs
    simp only [fill_any, add_if_new_unmastered_eq, List.filter_cons]
    by_cases hm : concept_mastered st c = false
    · rw [if_pos hm]
      have hb : (!concept_mastered st c) = true := by rw [hm]; rfl
      rw [hb, if_pos rfl]
      have hd : dedupAppend recs (c :: rest.filter (fun c => !concept_mastered st c))
          = dedupAppend (add_if_new recs c) (rest.filter (fun c => !concept_mastered st c)) := rfl
      rw [hd]
      by_cases hk : k ≤ (add_if_new recs c).length
      · rw [if_pos hk]
        exact ⟨prefix_dedupAppend _ _, Or.inr hk⟩
      · rw [if_neg hk]
        exact ih (add_if_new recs c)
    · rw [if_neg hm]
      have hmt : concept_mastered st c = true := by
        revert hm
        cases concept_mastered st c <;> simp
      have hb : (!concept_mastered st c) = false := by rw [hmt]; rfl
      rw [hb, if_neg Bool.false_ne_true]
      by_cases hk : k ≤ recs.length
      · rw [if_pos hk]
        exact ⟨prefix_dedupAppend _ _, Or.inr hk⟩
      · rw [if_neg hk]
        exact ih recs

/-- When the accumulator already has length ≥ k, one more fill pass keeps
it as a prefix, leaves the first k elements alone, and stays ≥ k. -/
theorem fill_of_le (k : Nat) (recs cands : List Concept) (hk : k ≤ recs.length) :
    recs <+: fill k recs cands ∧ (fill k recs cands).take k = recs.take k ∧
      k ≤ (fill k recs cands).length := by
  cases cands with
  | nil => exact ⟨List.prefix_rfl, rfl, hk⟩
  | cons c rest =>
    simp only [fill]
    have hle : recs.length ≤ (add_if_new recs c).length := by
      unfold add_if_new
      split
      · exact le_rfl
      · simp
    rw [if_pos (le_trans hk hle)]
    have hpre : recs <+: add_if_new recs c := by
      unfold add_if_new
      split
      · exact List.prefix_rfl
      · exact List.prefix_append recs [c]
    exact ⟨hpre, prefix_take_eq hpre hk, le_trans hk hle⟩

/-- Composing one fill phase with the corresponding spec phase preserves
the take-k agreement invariant. -/
theorem step_fill (k : Nat) (F D : List Concept)
    (h1 : F.take k = D.take k) (h2 : F = D ∨ (k ≤ F.length ∧ k ≤ D.length))
    (cands : List Concept) :
    (fill k F cands).take k = (dedupAppend D cands).take k ∧
    (fill k F cands = dedupAppend D cands
      ∨ (k ≤ (fill k F cands).length ∧ k ≤ (dedupAppend D cands).length)) := by
  rcases h2 with rfl | ⟨hF, hD⟩
  · rcases fill_dedup k cands F with ⟨hpre, heq | hlen⟩
    · exact ⟨by rw [heq], Or.inl heq⟩
    · refine ⟨(prefix_take_eq hpre hlen).symm, Or.inr ⟨hlen, le_trans hlen hpre.length_le⟩⟩
  · obtain ⟨hpF, htF, hlF⟩ := fill_of_le k F cands hF
    have hpD := prefix_dedupAppend cands D
    have htD : (dedupAppend D cands).take k = D.take k := prefix_take_eq hpD hD
    refine ⟨?_, Or.inr ⟨hlF, le_trans hD hpD.length_le⟩⟩
    rw [htF, htD, h1]

/-- The guarded phase-3 pass agrees on the first k elements with the
spec's final deduplicating append over the unmastered concepts. -/
theorem step_fill_any (st : ProgressState) (k : Nat) (F D : List Concept)
    (h1 : F.take k = D.take k) (h2 : F = D ∨ (k ≤ F.length ∧ k ≤ D.length))
    (cs : List Concept) :
    (if F.length < k then fill_any st k F cs else F).take k
      = (dedupAppend D (cs.filter (fun c => !concept_mastered st c))).take k := by
  rcases h2 with rfl | ⟨hF, hD⟩
  · by_cases hg : F.length < k
    · rw [if_pos hg]
      rcases fill_any_dedup st k cs F with ⟨hpre, heq | hlen⟩
      · rw [heq]
      · exact (prefix_take_eq hpre hlen).symm
    · rw [if_neg hg]
      push_neg at hg
      have hpD := prefix_dedupAppend (cs.filter (fun c => !concept_mastered st c)) F
      exact (prefix_take_eq hpD hg).symm
  · rw [if_neg (not_lt.mpr hF)]
    have hpD := prefix_dedupAppend (cs.filter (fun c => !concept_mastered st c)) D
    rw [prefix_take_eq hpD hD, h1]

/-- C4: the recommender fills its output in the spec's three phases in
order — unvisited beginner-level concepts in list order, then candidates
related to mastered concepts in iteration order, then remaining
unmastered concepts — deduplicated and truncated to k; and on the
scenario with an unvisited beginner and a mastered-related candidate and
k = 1, the beginner concept is returned first. -/
theorem recommend_next_phases :
    (∀ (st : ProgressState) (concepts : List Concept) (k : Nat),
      recommend_next st concepts k = recommendNextSpec st concepts k) ∧
    recommend_next ⟨[("qm", true)], [], none⟩
      [Concept.mk "BeginnerTopic" (some "Beginner") [] [],
       Concept.mk "MasteredTopic" (some "Intermediate")
         [Quiz.mk "qm" (some "Q") (some "a|b") (some "a")]
         [Concept.mk "RelatedCandidate" (some "Intermediate") [] []],
       Concept.mk "RelatedCandidate" (some "Intermediate") [] []] 1
      = [Concept.mk "BeginnerTopic" (some "Beginner") [] []] := by
  constructor
  · intro st concepts k
    rw [recommend_next_eq]
    have e1 := step_fill k [] [] rfl (Or.inl rfl) (beginnerPhase st concepts)
    have e2 := step_fill k (fill k [] (beginnerPhase st concepts))
      (dedupAppend [] (beginnerPhase st concepts)) e1.1 e1.2 (relatedPhase st concepts)
    have e3 := step_fill_any st k
      (fill k (fill k [] (beginnerPhase st concepts)) (relatedPhase st concepts))
      (dedupAppend (dedupAppend [] (beginnerPhase st concepts)) (relatedPhase st concepts))
      e2.1 e2.2 concepts
    rw [recommendNextSpec, unmasteredPhase]
    exact e3
  · decide

/-! ### No-duplicates and length bound for the recommender -/

/-- `add_if_new` preserves freedom from duplicates. -/
theorem add_if_new_nodup {recs : List Concept} (h : recs.Nodup) (c : Concept) :
    (add_if_new recs c).Nodup := by
  unfold add_if_new
  split
  · exact h
  · rename_i hc
    rw [List.nodup_append]
    refine ⟨h, List.nodup_singleton c, ?_⟩
    intro a ha hb
    rw [List.mem_singleton] at hb
    subst hb
    exact hc ha

/-- `add_if_new_unmastered` preserves freedom from duplicates. -/
theorem add_if_new_unmastered_nodup {st : ProgressState} {recs : List Concept}
    (h : recs.Nodup) (c : Concept) : (add_if_new_unmastered st recs c).Nodup := by
  rw [add_if_new_unmastered_eq]
  split
  · exact add_if_new_nodup h c
  · exact h

/-- The phase-1/2 fill loop preserves freedom from duplicates. -/
theorem fill_nodup (k : Nat) : ∀ (cands recs : List Concept),
    recs.Nodup → (fill k recs cands).Nodup := by
  intro cands
  induction cands with
  | nil => intro recs h; exact h
  | cons c rest ih =>
    intro recs h
    simp only [fill]
    split
    · exact add_if_new_nodup h c
    · exact ih _ (add_if_new_nodup h c)

/-- The phase-3 fill loop preserves freedom from duplicates. -/
theorem fill_any_nodup (st : ProgressState) (k : Nat) : ∀ (cands recs : List Concept),
    recs.Nodup → (fill_any st k recs cands).Nodup := by
  intro cands
  induction cands with
  | nil => intro recs h; exact h
  | cons c rest ih =>
    intro recs h
    simp only [fill_any]
    split
    · exact add_if_new_unmastered_nodup h c
    · exact ih _ (add_if_new_unmastered_nodup h c)

/-- C5: for every concept list, progress state and k, the recommender
returns a list with no duplicate concepts of length at most k. -/
theorem recommend_next_nodup_bounded (st : ProgressState) (concepts : List Concept) (k : Nat) :
    (recommend_next st concepts k).Nodup ∧ (recommend_next st concepts k).length ≤ k := by
  rw [recommend_next_eq]
  constructor
  · have h3 : (if (fill k (fill k [] (beginnerPhase st concepts))
          (relatedPhase st concepts)).length < k
        then fill_any st k
          (fill k (fill k [] (beginnerPhase st concepts)) (relatedPhase st concepts)) concepts
        else fill k (fill k [] (beginnerPhase st concepts))
          (relatedPhase st concepts)).Nodup := by
      split
      · exact fill_any_nodup st k concepts _
          (fill_nodup k _ _ (fill_nodup k _ [] List.nodup_nil))
      · exact fill_nodup k _ _ (fill_nodup k _ [] List.nodup_nil)
    exact h3.sublist (List.take_sublist k _)
  · rw [List.length_take]
    exact min_le_left _ _

/-- C10: the recommender can return an already-mastered concept — its
first phase filters only on unvisitedness and beginner level, and
recording a quiz result (as the Quiz Hub does) does not mark the concept
visited, so an unvisited beginner concept that is already mastered is
recommended. -/
theorem recommend_next_returns_mastered :
    (check_quiz_step ⟨[], [], none⟩ (Quiz.mk "q1" (some "Q") (some "a|b") (some "a"))
        "a").visited_concepts = [] ∧
    concept_mastered (check_quiz_step ⟨[], [], none⟩
        (Quiz.mk "q1" (some "Q") (some "a|b") (some "a")) "a")
      (Concept.mk "CurrentRatio" (some "Beginner")
        [Quiz.mk "q1" (some "Q") (some "a|b") (some "a")] []) = true ∧
    recommend_next (check_quiz_step ⟨[], [], none⟩
        (Quiz.mk "q1" (some "Q") (some "a|b") (some "a")) "a")
      [Concept.mk "CurrentRatio" (some "Beginner")
        [Quiz.mk "q1" (some "Q") (some "a|b") (some "a")] []] 1
      = [Concept.mk "CurrentRatio" (some "Beginner")
          [Quiz.mk "q1" (some "Q") (some "a|b") (some "a")] []] :=
  ⟨by decide, by decide, by decide⟩

end ITS
